import Mathlib

/-!
Shallow embedding of the `myls` directory-listing utility (src/myls.c,
src/myls.h) together with proofs about its observable behaviour.

Modelling conventions:
* Machine integers (`long` timestamps) are `Int`; counts are `Nat`.
* The filesystem is an abstract structure `Fs` recording, for every path,
  whether `opendir` succeeds, the `readdir` traversal order, whether
  `lstat` succeeds, and the metadata `lstat` would report.
* `qsort` with a comparator `cmp` is modelled as a comparison sort
  (`List.insertionSort`) with the relation `cmp a b ≤ 0`; this captures
  exactly the orderings the comparators define.
* `strcmp` is modelled sign-normalised (C specifies only the sign of its
  result) as lexicographic comparison of the character sequences; on the
  UTF-8 byte strings C sees, byte order and code-point order coincide.
* Output is modelled as the list of printed lines, split by stream:
  `printf` lines and `fprintf(stderr, ...)` lines.
* `file_list_t` is modelled as the list of its valid entries (the prefix
  of the C array below `count`); the `count` field is its length.
-/

namespace Myls

/-- `MAX_FILES` from src/myls.h line 12. -/
def MAX_FILES : Nat := 2000

/-- `options_t` from src/myls.h: the `-a` / `-t` flag set. -/
structure options_t where
  show_all : Bool
  sort_time : Bool
deriving DecidableEq, Repr

/-- `file_info_t` from src/myls.h: per-entry metadata. -/
structure file_info_t where
  name : String
  sec : Int
  nsec : Int
  is_dir : Bool
deriving DecidableEq, Repr

/-- `file_list_t` from src/myls.h, modelled as the valid prefix of the
fixed array. -/
structure file_list_t where
  files : List file_info_t
deriving DecidableEq

/-- The `count` field of a `file_list_t`. -/
def file_list_t.count (fl : file_list_t) : Nat := fl.files.length

/-- Abstract filesystem: everything the program observes through
`opendir`, `readdir` and `lstat`. -/
structure Fs where
  opendirOk : String → Bool
  listing : String → List String
  lstatOk : String → Bool
  mtimeSec : String → Int
  mtimeNsec : String → Int
  isDir : String → Bool

/-- Lexicographic three-way comparison of character sequences: the
behaviour of `strcmp` on the corresponding C strings (sign only). -/
def charListCmp : List Char → List Char → Int
  | [], [] => 0
  | [], _ :: _ => -1
  | _ :: _, [] => 1
  | a :: as, b :: bs =>
    if a < b then -1 else if b < a then 1 else charListCmp as bs

/-- `strcmp`, sign-normalised. -/
def strcmp (a b : String) : Int := charListCmp a.data b.data

/-- `cmp_lex` from src/myls.c lines 200-204: comparator on operand
strings. -/
def cmp_lex (a b : String) : Int := strcmp a b

/-- `cmp_file_time` from src/myls.c lines 357-369: seconds descending,
then nanoseconds descending, then name via `strcmp`. -/
def cmp_file_time (fa fb : file_info_t) : Int :=
  if fa.sec < fb.sec then 1
  else if fa.sec > fb.sec then -1
  else if fa.nsec < fb.nsec then 1
  else if fa.nsec > fb.nsec then -1
  else strcmp fa.name fb.name

/-- `cmp_file_lex` from src/myls.c lines 391-396. -/
def cmp_file_lex (fa fb : file_info_t) : Int := strcmp fa.name fb.name

/-- The ordering `qsort(…, cmp_lex)` establishes. -/
def lexLe (a b : String) : Prop := cmp_lex a b ≤ 0

/-- The ordering `qsort(…, cmp_file_time)` establishes. -/
def fileTimeLe (a b : file_info_t) : Prop := cmp_file_time a b ≤ 0

/-- The ordering `qsort(…, cmp_file_lex)` establishes. -/
def fileLexLe (a b : file_info_t) : Prop := cmp_file_lex a b ≤ 0

instance : DecidableRel lexLe :=
  fun a b => inferInstanceAs (Decidable (cmp_lex a b ≤ 0))

instance : DecidableRel fileTimeLe :=
  fun a b => inferInstanceAs (Decidable (cmp_file_time a b ≤ 0))

instance : DecidableRel fileLexLe :=
  fun a b => inferInstanceAs (Decidable (cmp_file_lex a b ≤ 0))

/-- `sort_entries` from src/myls.c lines 219-221: `qsort` with
`cmp_lex`. -/
def sort_entries (entries : List String) : List String :=
  entries.insertionSort lexLe

/-- `sort_file_list` from src/myls.c lines 325-331. -/
def sort_file_list (fl : file_list_t) (sort_time : Bool) : file_list_t :=
  if sort_time then ⟨fl.files.insertionSort fileTimeLe⟩
  else ⟨fl.files.insertionSort fileLexLe⟩

/-- The C test `name[0] == '.'` (hidden-entry marker). -/
def hiddenName (name : String) : Bool := name.data.head? == some '.'

/-- The C test `argv[i][0] == '-'` (flag-token introducer). -/
def isFlagToken (a : String) : Bool := a.data.head? == some '-'

/-- Inner loop of `parse_options`: scan the characters of one flag token
after the introducer, accumulating flags, stopping at the first
unrecognized character. -/
def scanFlagChars (opts : options_t) : List Char → Except Char options_t
  | [] => .ok opts
  | c :: rest =>
    if c = 'a' then scanFlagChars ⟨true, opts.sort_time⟩ rest
    else if c = 't' then scanFlagChars ⟨opts.show_all, true⟩ rest
    else .error c

/-- Outer loop of `parse_options` (src/myls.c lines 99-110): scan every
argument; flag tokens contribute their characters, an unrecognized
character aborts with that character. -/
def parseLoop (opts : options_t) : List String → Except Char options_t
  | [] => .ok opts
  | a :: rest =>
    if isFlagToken a then
      match scanFlagChars opts a.data.tail with
      | .ok o => parseLoop o rest
      | .error c => .error c
    else parseLoop opts rest

/-- `parse_options` from src/myls.c lines 93-112: `.error c` models the
`printf("myls: invalid option -- %c"); exit(1)` path. -/
def parse_options (args : List String) : Except Char options_t :=
  parseLoop ⟨false, false⟩ args

/-- Result of `gather_paths`: classified operands, accepted total, and the
diagnostics it printed (via `printf`, hence to standard output). -/
structure gather_t where
  dirs : List String
  non_dirs : List String
  total : Nat
  out : List String
deriving DecidableEq, Repr

/-- The classification loop of `gather_paths` (src/myls.c lines 146-173),
before the empty-total default substitution. -/
def gatherLoop (fs : Fs) : List String → gather_t
  | [] => ⟨[], [], 0, []⟩
  | a :: rest =>
    let g := gatherLoop fs rest
    if isFlagToken a then g
    else if fs.opendirOk a then ⟨a :: g.dirs, g.non_dirs, g.total + 1, g.out⟩
    else if fs.lstatOk a then ⟨g.dirs, a :: g.non_dirs, g.total + 1, g.out⟩
    else ⟨g.dirs, g.non_dirs, g.total, ("myls: cannot access -- " ++ a) :: g.out⟩

/-- `gather_paths` from src/myls.c lines 140-181, including the
default-to-`.` substitution when no operand was accepted. -/
def gather_paths (fs : Fs) (args : List String) : gather_t :=
  let g := gatherLoop fs args
  if g.total = 0 then ⟨["."], g.non_dirs, 1, g.out⟩ else g

/-- The capacity-overflow warning printed by `read_directory`. -/
def warnMsg (path : String) : String :=
  "Warning: too many files in '" ++ path ++ "' (max " ++ toString MAX_FILES
    ++ "). Some entries skipped"

/-- The `file_info_t` record `read_directory` builds for one entry. -/
def mkInfo (fs : Fs) (path name : String) : file_info_t :=
  ⟨name, fs.mtimeSec (path ++ "/" ++ name), fs.mtimeNsec (path ++ "/" ++ name),
    fs.isDir (path ++ "/" ++ name)⟩

/-- The `readdir` loop of `read_directory` (src/myls.c lines 266-296):
returns the collected entries and the stdout warnings, threading the
running count. -/
def readLoop (fs : Fs) (path : String) (showHidden : Bool) :
    List String → Nat → List file_info_t × List String
  | [], _ => ([], [])
  | name :: rest, count =>
    if !showHidden && hiddenName name then
      readLoop fs path showHidden rest count
    else if fs.lstatOk (path ++ "/" ++ name) then
      if count < MAX_FILES then
        let r := readLoop fs path showHidden rest (count + 1)
        (mkInfo fs path name :: r.1, r.2)
      else
        let r := readLoop fs path showHidden rest count
        (r.1, warnMsg path :: r.2)
    else readLoop fs path showHidden rest count

/-- Result of `read_directory`: the list plus the lines it printed to
standard output (capacity warnings) and to the error stream. -/
structure dir_read_t where
  flist : file_list_t
  out : List String
  err : List String
deriving DecidableEq

/-- `read_directory` from src/myls.c lines 254-299. -/
def read_directory (fs : Fs) (path : String) (show_hidden : Bool) : dir_read_t :=
  if fs.opendirOk path then
    let r := readLoop fs path show_hidden (fs.listing path) 0
    ⟨⟨r.1⟩, r.2, []⟩
  else
    ⟨⟨[]⟩, [], ["myls: cannot access " ++ path]⟩

/-- Result of a whole run: stdout lines, stderr lines, exit status. -/
structure run_t where
  out : List String
  err : List String
  exit : Nat
deriving DecidableEq

/-- The per-directory print loop of `main` (src/myls.c lines 61-74):
`n` is the total directory count (the header condition); a blank line
follows every directory except the last. -/
def dirBlocks (fs : Fs) (opts : options_t) (n : Nat) :
    List String → List String × List String
  | [] => ([], [])
  | d :: rest =>
    let rd := read_directory fs d opts.show_all
    let sorted := sort_file_list rd.flist opts.sort_time
    let t := dirBlocks fs opts n rest
    ((if n > 1 then [d ++ ":"] else []) ++ rd.out
        ++ sorted.files.map file_info_t.name
        ++ (if rest.isEmpty then [] else [""]) ++ t.1,
      rd.err ++ t.2)

/-- `main` from src/myls.c lines 29-76, as a function from the abstract
filesystem and argument list (without `argv[0]`) to the run result. -/
def main_run (fs : Fs) (args : List String) : run_t :=
  match parse_options args with
  | .error c => ⟨["myls: invalid option -- " ++ String.singleton c], [], 1⟩
  | .ok opts =>
    let g := gather_paths fs args
    let nds := if g.non_dirs.length > 1 then sort_entries g.non_dirs else g.non_dirs
    let ds := if g.dirs.length > 1 then sort_entries g.dirs else g.dirs
    let sep := if g.non_dirs.length > 0 ∧ g.dirs.length > 0 then [""] else []
    let blocks := dirBlocks fs opts ds.length ds
    ⟨g.out ++ nds ++ sep ++ blocks.1, blocks.2, 0⟩

/-! ### Specification-side definitions

These re-state, independently of the control flow above, the notions the
spec's sentences quantify over: which entries a traversal accepts, which
operands classification accepts, the flag characters an argument list
carries, and the orders and output layout the spec describes. -/

/-- An enumerated entry passes the hidden filter and `lstat`. -/
def acceptPred (fs : Fs) (path : String) (sh : Bool) (name : String) : Bool :=
  (sh || !(hiddenName name)) && fs.lstatOk (path ++ "/" ++ name)

/-- The entries a traversal of `path` accepts, in traversal order. -/
def acceptedNames (fs : Fs) (path : String) (sh : Bool) : List String :=
  (fs.listing path).filter (acceptPred fs path sh)

/-- Operands classified as directories, in command-line order. -/
def acceptedDirs (fs : Fs) (args : List String) : List String :=
  args.filter (fun a => !(isFlagToken a) && fs.opendirOk a)

/-- Operands classified as plain files, in command-line order. -/
def acceptedFiles (fs : Fs) (args : List String) : List String :=
  args.filter (fun a => !(isFlagToken a) && !(fs.opendirOk a) && fs.lstatOk a)

/-- Operands rejected by classification, in command-line order. -/
def rejectedOps (fs : Fs) (args : List String) : List String :=
  args.filter (fun a => !(isFlagToken a) && !(fs.opendirOk a) && !(fs.lstatOk a))

/-- All option characters of the argument list, in scan order. -/
def flagChars : List String → List Char
  | [] => []
  | a :: rest => (if isFlagToken a then a.data.tail else []) ++ flagChars rest

/-- A character that is not a recognized option. -/
def invalidChar (c : Char) : Bool := !(c == 'a' || c == 't')

/-- Strict byte-wise lexicographic order on names. -/
def strLt (a b : String) : Prop := List.Lex (· < ·) a.data b.data

/-- Reflexive byte-wise lexicographic order on names. -/
def strLe (a b : String) : Prop := a = b ∨ strLt a b

/-- The strict time-sort order the spec describes: seconds descending,
then nanoseconds descending, then name ascending. -/
def timeLt (a b : file_info_t) : Prop :=
  b.sec < a.sec ∨
    (a.sec = b.sec ∧ (b.nsec < a.nsec ∨ (a.nsec = b.nsec ∧ strLt a.name b.name)))

/-- The directory section of the output layout as the spec describes it
(stated from the spec's words, to be compared with the code's `dirBlocks`):
given the total number of directory operands `n`, each directory's printed
contents, and the directories in print order, emit a `<dir>:` header iff
`n > 1`, then the contents, then one blank line iff the directory is not
the last. -/
def specBlocks (n : Nat) (contents : String → List String) :
    List String → List String
  | [] => []
  | d :: rest =>
    (if n > 1 then [d ++ ":"] else []) ++ contents d
      ++ (if rest = [] then [] else [""]) ++ specBlocks n contents rest

/-- The sorted name list a directory's block prints. -/
def sortedNamesOf (fs : Fs) (opts : options_t) (d : String) : List String :=
  (sort_file_list (read_directory fs d opts.show_all).flist
      opts.sort_time).files.map file_info_t.name

/-! ### Concrete inputs used as counterexamples and witnesses -/

/-- A filesystem with a single directory `d` holding 2002 statable,
non-hidden entries: two more than `MAX_FILES`. -/
def fsOver : Fs :=
  ⟨fun _ => true, fun _ => List.replicate 2002 "f", fun _ => true,
    fun _ => 0, fun _ => 0, fun _ => false⟩

/-- A filesystem where only `.` opens (listing empty) and nothing else
exists. -/
def fsDot : Fs :=
  ⟨fun p => p == ".", fun _ => [], fun _ => false,
    fun _ => 0, fun _ => 0, fun _ => false⟩

/-- A filesystem whose directory `d` enumerates one non-hidden entry `x`
for which `lstat` fails. -/
def fsStatFail : Fs :=
  ⟨fun _ => true, fun p => if p = "d" then ["x"] else [], fun _ => false,
    fun _ => 0, fun _ => 0, fun _ => false⟩

/-- A small healthy filesystem: directory `d1` with entries `b`, `a`,
plain file `f1`, and directory `.` with pseudo-entries and a hidden file. -/
def fsDemo : Fs :=
  ⟨fun p => p == "d1" || p == ".",
    fun p => if p = "d1" then ["b", "a"] else if p = "." then ["..", ".", "c", ".h"] else [],
    fun p => p != "zz",
    fun _ => 0, fun _ => 0, fun _ => false⟩


theorem charListCmp_neg : ∀ as bs : List Char, charListCmp as bs = -charListCmp bs as
  | [], [] => by simp [charListCmp]
  | [], _ :: _ => by simp [charListCmp]
  | _ :: _, [] => by simp [charListCmp]
  | a :: as, b :: bs => by
    simp only [charListCmp]
    rcases lt_trichotomy a b with h | h | h
    · simp [h, lt_asymm h]
    · simp [h, lt_irrefl, charListCmp_neg as bs]
    · simp [h, lt_asymm h]

theorem charListCmp_eq_zero_iff : ∀ as bs : List Char, charListCmp as bs = 0 ↔ as = bs
  | [], [] => by simp [charListCmp]
  | [], _ :: _ => by simp [charListCmp]
  | _ :: _, [] => by simp [charListCmp]
  | a :: as, b :: bs => by
    simp only [charListCmp]
    rcases lt_trichotomy a b with h | h | h
    · simp [h, h.ne]
    · simp [h, lt_irrefl, charListCmp_eq_zero_iff as bs]
    · simp [h, lt_asymm h, (lt_asymm h : ¬ a < b), h.ne']

theorem charListCmp_lt_trans :
    ∀ as bs cs : List Char,
      charListCmp as bs < 0 → charListCmp bs cs < 0 → charListCmp as cs < 0
  | [], [], _ => by simp [charListCmp]
  | [], _ :: _, [] => by simp [charListCmp]
  | [], _ :: _, _ :: _ => by simp [charListCmp]
  | _ :: _, [], _ => by simp [charListCmp]
  | _ :: _, _ :: _, [] => by simp [charListCmp]
  | a :: as, b :: bs, c :: cs => by
    intro h1 h2
    simp only [charListCmp] at h1 h2 ⊢
    split_ifs at h1 with hab hba
    · split_ifs at h2 with hbc hcb
      · rw [if_pos (lt_trans hab hbc)]; norm_num
      · norm_num at h2
      · have hbc' : b = c := le_antisymm (not_lt.mp hcb) (not_lt.mp hbc)
        rw [if_pos (hbc' ▸ hab)]; norm_num
    · norm_num at h1
    · have hab' : a = b := le_antisymm (not_lt.mp hba) (not_lt.mp hab)
      split_ifs at h2 with hbc hcb
      · rw [if_pos (hab' ▸ hbc)]; norm_num
      · norm_num at h2
      · have hbc' : b = c := le_antisymm (not_lt.mp hcb) (not_lt.mp hbc)
        rw [if_neg (by rw [hab', hbc']; exact lt_irrefl c),
          if_neg (by rw [hab', hbc']; exact lt_irrefl c)]
        exact charListCmp_lt_trans as bs cs h1 h2

theorem charListCmp_lt_iff_lex :
    ∀ as bs : List Char, charListCmp as bs < 0 ↔ List.Lex (· < ·) as bs
  | [], [] => by
    simp only [charListCmp]
    exact iff_of_false (by norm_num) (fun h => by cases h)
  | [], b :: bs => by
    simp only [charListCmp]
    exact iff_of_true (by norm_num) List.Lex.nil
  | a :: as, [] => by
    simp only [charListCmp]
    exact iff_of_false (by norm_num) (fun h => by cases h)
  | a :: as, b :: bs => by
    simp only [charListCmp]
    split_ifs with hab hba
    · exact iff_of_true (by norm_num) (List.Lex.rel hab)
    · refine iff_of_false (by norm_num) (fun h => ?_)
      cases h with
      | rel h' => exact absurd h' (lt_asymm hba)
      | cons h' => exact absurd hba (lt_irrefl _)
    · have hab' : a = b := le_antisymm (not_lt.mp hba) (not_lt.mp hab)
      subst hab'
      rw [charListCmp_lt_iff_lex as bs]
      constructor
      · exact fun h => List.Lex.cons h
      · intro h
        cases h with
        | rel h' => exact absurd h' (lt_irrefl _)
        | cons h' => exact h'


theorem strcmp_neg (a b : String) : strcmp a b = -strcmp b a :=
  charListCmp_neg a.data b.data

theorem strcmp_eq_zero_iff (a b : String) : strcmp a b = 0 ↔ a = b :=
  (charListCmp_eq_zero_iff a.data b.data).trans
    ⟨fun h => String.ext h, fun h => h ▸ rfl⟩

theorem strcmp_lt_trans {a b c : String} :
    strcmp a b < 0 → strcmp b c < 0 → strcmp a c < 0 :=
  charListCmp_lt_trans a.data b.data c.data

theorem strcmp_lt_iff (a b : String) : strcmp a b < 0 ↔ strLt a b :=
  charListCmp_lt_iff_lex a.data b.data

theorem strcmp_le_iff (a b : String) : strcmp a b ≤ 0 ↔ strLe a b := by
  rw [Int.le_iff_lt_or_eq, strcmp_lt_iff, strcmp_eq_zero_iff, strLe, or_comm]

theorem strLt_trans {a b c : String} : strLt a b → strLt b c → strLt a c := by
  intro h1 h2
  exact (strcmp_lt_iff a c).mp
    (strcmp_lt_trans ((strcmp_lt_iff a b).mpr h1) ((strcmp_lt_iff b c).mpr h2))

theorem lexLe_total : ∀ a b : String, lexLe a b ∨ lexLe b a := by
  intro a b
  rcases le_or_lt (cmp_lex a b) 0 with h | h
  · exact Or.inl h
  · right
    show cmp_lex b a ≤ 0
    have := strcmp_neg a b
    simp only [cmp_lex] at *
    omega

theorem lexLe_trans : ∀ a b c : String, lexLe a b → lexLe b c → lexLe a c := by
  intro a b c h1 h2
  rcases lt_or_eq_of_le h1 with h1' | h1'
  · rcases lt_or_eq_of_le h2 with h2' | h2'
    · exact le_of_lt (strcmp_lt_trans h1' h2')
    · have hbc : b = c := (strcmp_eq_zero_iff b c).mp h2'
      exact hbc ▸ h1
  · have hab : a = b := (strcmp_eq_zero_iff a b).mp h1'
    exact hab ▸ h2

theorem cmp_file_time_neg (a b : file_info_t) :
    cmp_file_time a b = -cmp_file_time b a := by
  simp only [cmp_file_time, gt_iff_lt]
  rcases lt_trichotomy a.sec b.sec with h | h | h
  · simp [h, lt_asymm h]
  · rcases lt_trichotomy a.nsec b.nsec with h2 | h2 | h2
    · simp [h, lt_irrefl, h2, lt_asymm h2]
    · simp [h, lt_irrefl, h2, strcmp_neg a.name b.name]
    · simp [h, lt_irrefl, h2, lt_asymm h2]
  · simp [h, lt_asymm h]

theorem cmp_file_time_eq_zero_iff (a b : file_info_t) :
    cmp_file_time a b = 0 ↔ a.sec = b.sec ∧ a.nsec = b.nsec ∧ a.name = b.name := by
  simp only [cmp_file_time, gt_iff_lt]
  rcases lt_trichotomy a.sec b.sec with h | h | h
  · simp [h, h.ne]
  · rcases lt_trichotomy a.nsec b.nsec with h2 | h2 | h2
    · simp [h, lt_irrefl, h2, h2.ne]
    · simp [h, lt_irrefl, h2, strcmp_eq_zero_iff]
    · simp [h, lt_irrefl, h2, lt_asymm h2, h2.ne']
  · simp [h, lt_asymm h, h.ne']

theorem cmp_file_time_lt_iff (a b : file_info_t) :
    cmp_file_time a b < 0 ↔ timeLt a b := by
  simp only [cmp_file_time, gt_iff_lt, timeLt]
  rcases lt_trichotomy a.sec b.sec with h | h | h
  · simp [h, lt_asymm h, h.ne]
  · rcases lt_trichotomy a.nsec b.nsec with h2 | h2 | h2
    · simp [h, lt_irrefl, h2, lt_asymm h2, h2.ne]
    · simp [h, lt_irrefl, h2, strcmp_lt_iff]
    · simp [h, lt_irrefl, h2, lt_asymm h2, h2.ne']
  · simp [h, lt_asymm h, h.ne']

theorem timeLt_trans {a b c : file_info_t} :
    timeLt a b → timeLt b c → timeLt a c := by
  rintro (h1 | ⟨e1, h1' | ⟨e1', hn1⟩⟩) (h2 | ⟨e2, h2' | ⟨e2', hn2⟩⟩)
  · exact Or.inl (by omega)
  · exact Or.inl (by omega)
  · exact Or.inl (by omega)
  · exact Or.inl (by omega)
  · exact Or.inr ⟨by omega, Or.inl (by omega)⟩
  · exact Or.inr ⟨by omega, Or.inl (by omega)⟩
  · exact Or.inl (by omega)
  · exact Or.inr ⟨by omega, Or.inl (by omega)⟩
  · exact Or.inr ⟨by omega, Or.inr ⟨by omega, strLt_trans hn1 hn2⟩⟩

theorem fileTimeLe_total : ∀ a b : file_info_t, fileTimeLe a b ∨ fileTimeLe b a := by
  intro a b
  rcases le_or_lt (cmp_file_time a b) 0 with h | h
  · exact Or.inl h
  · right
    show cmp_file_time b a ≤ 0
    have := cmp_file_time_neg a b
    omega

theorem cmp_file_time_congr_left {a b : file_info_t} (c : file_info_t)
    (h1 : a.sec = b.sec) (h2 : a.nsec = b.nsec) (h3 : a.name = b.name) :
    cmp_file_time a c = cmp_file_time b c := by
  simp [cmp_file_time, h1, h2, h3]

theorem cmp_file_time_congr_right {b c : file_info_t} (a : file_info_t)
    (h1 : b.sec = c.sec) (h2 : b.nsec = c.nsec) (h3 : b.name = c.name) :
    cmp_file_time a b = cmp_file_time a c := by
  simp [cmp_file_time, h1, h2, h3]

theorem fileTimeLe_trans :
    ∀ a b c : file_info_t, fileTimeLe a b → fileTimeLe b c → fileTimeLe a c := by
  intro a b c h1 h2
  rcases lt_or_eq_of_le h1 with h1' | h1'
  · rcases lt_or_eq_of_le h2 with h2' | h2'
    · have := (cmp_file_time_lt_iff a c).mpr
        (timeLt_trans ((cmp_file_time_lt_iff a b).mp h1')
          ((cmp_file_time_lt_iff b c).mp h2'))
      exact le_of_lt this
    · obtain ⟨e1, e2, e3⟩ := (cmp_file_time_eq_zero_iff b c).mp h2'
      show cmp_file_time a c ≤ 0
      rw [← cmp_file_time_congr_right a e1 e2 e3]
      exact h1
  · obtain ⟨e1, e2, e3⟩ := (cmp_file_time_eq_zero_iff a b).mp h1'
    show cmp_file_time a c ≤ 0
    rw [cmp_file_time_congr_left c e1 e2 e3]
    exact h2

theorem fileLexLe_total : ∀ a b : file_info_t, fileLexLe a b ∨ fileLexLe b a := by
  intro a b
  rcases le_or_lt (cmp_file_lex a b) 0 with h | h
  · exact Or.inl h
  · right
    show cmp_file_lex b a ≤ 0
    have := strcmp_neg a.name b.name
    simp only [cmp_file_lex] at *
    omega

theorem fileLexLe_trans :
    ∀ a b c : file_info_t, fileLexLe a b → fileLexLe b c → fileLexLe a c := by
  intro a b c h1 h2
  simp only [fileLexLe, cmp_file_lex] at *
  rcases lt_or_eq_of_le h1 with h1' | h1'
  · rcases lt_or_eq_of_le h2 with h2' | h2'
    · exact le_of_lt (strcmp_lt_trans h1' h2')
    · have hbc : b.name = c.name := (strcmp_eq_zero_iff _ _).mp h2'
      rw [← hbc]; exact h1
  · have hab : a.name = b.name := (strcmp_eq_zero_iff _ _).mp h1'
    rw [hab]; exact h2


theorem sort_entries_sorted (l : List String) : (sort_entries l).Pairwise lexLe := by
  haveI : IsTotal String lexLe := ⟨lexLe_total⟩
  haveI : IsTrans String lexLe := ⟨lexLe_trans⟩
  exact List.sorted_insertionSort lexLe l

theorem sort_entries_perm (l : List String) : (sort_entries l).Perm l :=
  List.perm_insertionSort lexLe l

theorem sort_entries_of_short {l : List String} (h : l.length ≤ 1) :
    sort_entries l = l := by
  match l with
  | [] => rfl
  | [a] => rfl
  | a :: b :: rest => simp at h

theorem sort_file_list_time_sorted (fl : file_list_t) :
    (sort_file_list fl true).files.Pairwise fileTimeLe := by
  haveI : IsTotal file_info_t fileTimeLe := ⟨fileTimeLe_total⟩
  haveI : IsTrans file_info_t fileTimeLe := ⟨fileTimeLe_trans⟩
  simpa [sort_file_list] using List.sorted_insertionSort fileTimeLe fl.files

theorem sort_file_list_files_perm (fl : file_list_t) (st : Bool) :
    (sort_file_list fl st).files.Perm fl.files := by
  cases st <;> simp [sort_file_list] <;> exact List.perm_insertionSort _ _

theorem readLoop_spec (fs : Fs) (path : String) (sh : Bool) :
    ∀ (names : List String) (count : Nat), count ≤ MAX_FILES →
      readLoop fs path sh names count =
        (((names.filter (acceptPred fs path sh)).map (mkInfo fs path)).take
            (MAX_FILES - count),
          List.replicate
            ((names.filter (acceptPred fs path sh)).length - (MAX_FILES - count))
            (warnMsg path))
  | [], count => by
    intro h
    simp [readLoop]
  | name :: rest, count => by
    intro h
    by_cases h1 : (!sh && hiddenName name) = true
    · have hp : acceptPred fs path sh name = false := by
        simp only [Bool.and_eq_true, Bool.not_eq_true'] at h1
        simp [acceptPred, h1.1, h1.2]
      rw [readLoop, if_pos h1, readLoop_spec fs path sh rest count h,
        List.filter_cons_of_neg (by simp [hp])]
    · by_cases h2 : fs.lstatOk (path ++ "/" ++ name) = true
      · have hho : (sh || !(hiddenName name)) = true := by
          cases hs : sh with
          | true => simp
          | false =>
            rw [hs] at h1
            have : hiddenName name = false := by simpa using h1
            simp [this]
        have hp : acceptPred fs path sh name = true := by
          simp [acceptPred, hho, h2]
        by_cases h3 : count < MAX_FILES
        · rw [readLoop, if_neg h1, if_pos h2, if_pos h3,
            readLoop_spec fs path sh rest (count + 1) (by omega)]
          have harith : MAX_FILES - count = (MAX_FILES - (count + 1)) + 1 := by omega
          rw [List.filter_cons_of_pos hp, List.map_cons, harith,
            List.take_succ_cons, List.length_cons]
          have harith2 :
              (rest.filter (acceptPred fs path sh)).length + 1
                  - ((MAX_FILES - (count + 1)) + 1)
                = (rest.filter (acceptPred fs path sh)).length
                  - (MAX_FILES - (count + 1)) := by omega
          rw [harith2]
        · have hc : MAX_FILES - count = 0 := by omega
          rw [readLoop, if_neg h1, if_pos h2, if_neg h3,
            readLoop_spec fs path sh rest count h,
            List.filter_cons_of_pos hp, List.map_cons, hc, List.take_zero,
            List.length_cons, Nat.sub_zero]
          simp [List.replicate_succ]
      · have hp : acceptPred fs path sh name = false := by
          simp [acceptPred, h2]
        rw [readLoop, if_neg h1, if_neg h2, readLoop_spec fs path sh rest count h,
          List.filter_cons_of_neg (by simp [hp])]

theorem read_directory_files (fs : Fs) (path : String) (sh : Bool)
    (h : fs.opendirOk path = true) :
    (read_directory fs path sh).flist.files
      = ((acceptedNames fs path sh).map (mkInfo fs path)).take MAX_FILES := by
  rw [read_directory, if_pos h, readLoop_spec fs path sh (fs.listing path) 0 (by omega)]
  simp [acceptedNames]

theorem read_directory_out (fs : Fs) (path : String) (sh : Bool)
    (h : fs.opendirOk path = true) :
    (read_directory fs path sh).out
      = List.replicate ((acceptedNames fs path sh).length - MAX_FILES) (warnMsg path) := by
  rw [read_directory, if_pos h, readLoop_spec fs path sh (fs.listing path) 0 (by omega)]
  simp [acceptedNames]

theorem gatherLoop_spec (fs : Fs) :
    ∀ args : List String,
      gatherLoop fs args =
        ⟨acceptedDirs fs args, acceptedFiles fs args,
          (acceptedDirs fs args).length + (acceptedFiles fs args).length,
          (rejectedOps fs args).map (fun a => "myls: cannot access -- " ++ a)⟩
  | [] => by simp [gatherLoop, acceptedDirs, acceptedFiles, rejectedOps]
  | a :: rest => by
    rw [gatherLoop]
    simp only [gatherLoop_spec fs rest]
    simp only [acceptedDirs, acceptedFiles, rejectedOps]
    by_cases h1 : isFlagToken a = true
    · have pd : (!isFlagToken a && fs.opendirOk a) = false := by simp [h1]
      have pf : (!isFlagToken a && !fs.opendirOk a && fs.lstatOk a) = false := by simp [h1]
      have pr : (!isFlagToken a && !fs.opendirOk a && !fs.lstatOk a) = false := by simp [h1]
      rw [if_pos h1,
        @List.filter_cons_of_neg _ (fun x => !isFlagToken x && fs.opendirOk x) a rest
          (by simp [pd]),
        @List.filter_cons_of_neg _
          (fun x => !isFlagToken x && !fs.opendirOk x && fs.lstatOk x) a rest (by simp [pf]),
        @List.filter_cons_of_neg _
          (fun x => !isFlagToken x && !fs.opendirOk x && !fs.lstatOk x) a rest (by simp [pr])]
    · have h1' : isFlagToken a = false := by simpa using h1
      by_cases h2 : fs.opendirOk a = true
      · have pd : (!isFlagToken a && fs.opendirOk a) = true := by simp [h1', h2]
        have pf : (!isFlagToken a && !fs.opendirOk a && fs.lstatOk a) = false := by
          simp [h2]
        have pr : (!isFlagToken a && !fs.opendirOk a && !fs.lstatOk a) = false := by
          simp [h2]
        rw [if_neg h1, if_pos h2,
          @List.filter_cons_of_pos _ (fun x => !isFlagToken x && fs.opendirOk x) a rest pd,
          @List.filter_cons_of_neg _
            (fun x => !isFlagToken x && !fs.opendirOk x && fs.lstatOk x) a rest (by simp [pf]),
          @List.filter_cons_of_neg _
            (fun x => !isFlagToken x && !fs.opendirOk x && !fs.lstatOk x) a rest (by simp [pr])]
        simp only [List.length_cons, gather_t.mk.injEq]
        exact ⟨trivial, trivial, by omega, trivial⟩
      · have h2' : fs.opendirOk a = false := by simpa using h2
        by_cases h3 : fs.lstatOk a = true
        · have pd : (!isFlagToken a && fs.opendirOk a) = false := by simp [h2']
          have pf : (!isFlagToken a && !fs.opendirOk a && fs.lstatOk a) = true := by
            simp [h1', h2', h3]
          have pr : (!isFlagToken a && !fs.opendirOk a && !fs.lstatOk a) = false := by
            simp [h3]
          rw [if_neg h1, if_neg h2, if_pos h3,
            @List.filter_cons_of_neg _ (fun x => !isFlagToken x && fs.opendirOk x) a rest
              (by simp [pd]),
            @List.filter_cons_of_pos _
              (fun x => !isFlagToken x && !fs.opendirOk x && fs.lstatOk x) a rest pf,
            @List.filter_cons_of_neg _
              (fun x => !isFlagToken x && !fs.opendirOk x && !fs.lstatOk x) a rest
              (by simp [pr])]
          simp only [List.length_cons, gather_t.mk.injEq]
          exact ⟨trivial, trivial, by omega, trivial⟩
        · have h3' : fs.lstatOk a = false := by simpa using h3
          have pd : (!isFlagToken a && fs.opendirOk a) = false := by simp [h2']
          have pf : (!isFlagToken a && !fs.opendirOk a && fs.lstatOk a) = false := by
            simp [h3']
          have pr : (!isFlagToken a && !fs.opendirOk a && !fs.lstatOk a) = true := by
            simp [h1', h2', h3']
          rw [if_neg h1, if_neg h2, if_neg h3,
            @List.filter_cons_of_neg _ (fun x => !isFlagToken x && fs.opendirOk x) a rest
              (by simp [pd]),
            @List.filter_cons_of_neg _
              (fun x => !isFlagToken x && !fs.opendirOk x && fs.lstatOk x) a rest
              (by simp [pf]),
            @List.filter_cons_of_pos _
              (fun x => !isFlagToken x && !fs.opendirOk x && !fs.lstatOk x) a rest pr,
            List.map_cons]


/-- C10: `sort_file_list`, in either mode, leaves the count unchanged and
produces a permutation of the input entries: nothing is added, dropped or
modified. -/
theorem sort_file_list_permutes (fl : file_list_t) (st : Bool) :
    (sort_file_list fl st).count = fl.count ∧
      (sort_file_list fl st).files.Perm fl.files :=
  ⟨(sort_file_list_files_perm fl st).length_eq, sort_file_list_files_perm fl st⟩

/-- C7: a directory read never yields more than `MAX_FILES` entries, and
the list is exactly the first `MAX_FILES` accepted entries in traversal
order (all of them when they fit). -/
theorem read_directory_capacity (fs : Fs) (path : String) (sh : Bool)
    (h : fs.opendirOk path = true) :
    (read_directory fs path sh).flist.count ≤ MAX_FILES ∧
      (read_directory fs path sh).flist.files
        = ((acceptedNames fs path sh).map (mkInfo fs path)).take MAX_FILES := by
  refine ⟨?_, read_directory_files fs path sh h⟩
  show (read_directory fs path sh).flist.files.length ≤ MAX_FILES
  rw [read_directory_files fs path sh h, List.length_take]
  omega

/-- Witness for C7 at a concrete filesystem. -/
theorem read_directory_capacity_witness :
    fsDemo.opendirOk "d1" = true ∧
      ((read_directory fsDemo "d1" false).flist.count ≤ MAX_FILES ∧
        (read_directory fsDemo "d1" false).flist.files
          = ((acceptedNames fsDemo "d1" false).map (mkInfo fsDemo "d1")).take MAX_FILES) :=
  ⟨rfl, read_directory_capacity fsDemo "d1" false rfl⟩

/-- C2 counterexample: a directory with 2002 accepted entries (two more
than `MAX_FILES`) gets the capacity warning twice, not exactly once. -/
theorem capacity_warning_repeats :
    MAX_FILES < (acceptedNames fsOver "d" false).length ∧
      (read_directory fsOver "d" false).out = List.replicate 2 (warnMsg "d") ∧
      (read_directory fsOver "d" false).out.length ≠ 1 := by
  have hacc : acceptedNames fsOver "d" false = List.replicate 2002 "f" := by
    show (List.replicate 2002 "f").filter _ = _
    rw [List.filter_replicate, if_pos (by decide)]
  have hlen : (acceptedNames fsOver "d" false).length = 2002 := by
    rw [hacc, List.length_replicate]
  refine ⟨by rw [hlen]; decide, ?_, ?_⟩
  · rw [read_directory_out fsOver "d" false rfl, hlen,
      show 2002 - MAX_FILES = 2 from by decide]
  · rw [read_directory_out fsOver "d" false rfl, hlen, List.length_replicate]
    decide

/-- C2 (amended): the capacity warning is emitted once per dropped
accepted entry — `accepted − MAX_FILES` times — rather than once per
directory. -/
theorem capacity_warning_per_dropped_entry (fs : Fs) (path : String) (sh : Bool)
    (h : fs.opendirOk path = true) :
    (read_directory fs path sh).out
      = List.replicate ((acceptedNames fs path sh).length - MAX_FILES) (warnMsg path) :=
  read_directory_out fs path sh h

/-- Witness for the amended C2 at a concrete overflowing filesystem. -/
theorem capacity_warning_per_dropped_entry_witness :
    fsOver.opendirOk "d" = true ∧
      (read_directory fsOver "d" false).out
        = List.replicate ((acceptedNames fsOver "d" false).length - MAX_FILES)
            (warnMsg "d") :=
  ⟨rfl, capacity_warning_per_dropped_entry fsOver "d" false rfl⟩

/-- C6 counterexample: with `show_all` true, the enumerated non-hidden
entry `x` is still excluded (its `lstat` fails), so exclusion is not
exactly "show_all false and name begins with a dot". -/
theorem stat_failure_excludes_entry :
    "x" ∈ fsStatFail.listing "d" ∧ hiddenName "x" = false ∧
      (read_directory fsStatFail "d" true).flist.files = [] :=
  ⟨by decide, rfl, rfl⟩

/-- C6 (amended): among entries whose status retrieval succeeds, and when
the directory's accepted entries fit the capacity, an enumerated entry is
listed iff it survives the hidden filter: excluded exactly when `show_all`
is false and its name begins with a dot; the rule applies uniformly to the
`.` and `..` pseudo-entries. -/
theorem hidden_filter_rule (fs : Fs) (path name : String) (sh : Bool)
    (hod : fs.opendirOk path = true)
    (hcap : (acceptedNames fs path sh).length ≤ MAX_FILES)
    (hstat : fs.lstatOk (path ++ "/" ++ name) = true) :
    name ∈ (read_directory fs path sh).flist.files.map file_info_t.name ↔
      name ∈ fs.listing path ∧ (sh = true ∨ hiddenName name = false) := by
  rw [read_directory_files fs path sh hod,
    List.take_of_length_le (by rw [List.length_map]; exact hcap)]
  rw [List.map_map]
  have : (file_info_t.name ∘ mkInfo fs path) = fun n => n := by
    funext n
    rfl
  rw [this, List.map_id']
  simp only [acceptedNames, List.mem_filter, acceptPred, Bool.and_eq_true,
    Bool.or_eq_true, Bool.not_eq_true', hstat, and_true]

/-- Witness for the amended C6: the `.` pseudo-entry of a concrete
directory is listed exactly when `show_all` is true. -/
theorem hidden_filter_rule_witness :
    fsDemo.opendirOk "." = true ∧
      (acceptedNames fsDemo "." true).length ≤ MAX_FILES ∧
      fsDemo.lstatOk ("." ++ "/" ++ ".") = true ∧
      ("." ∈ (read_directory fsDemo "." true).flist.files.map file_info_t.name ↔
        "." ∈ fsDemo.listing "." ∧ (true = true ∨ hiddenName "." = false)) :=
  ⟨rfl, by decide, rfl, hidden_filter_rule fsDemo "." "." true rfl (by decide) rfl⟩

/-- C3 counterexample: the cannot-access diagnostic for an invalid operand
is printed on standard output, while the error stream stays empty. -/
theorem cannot_access_goes_to_stdout :
    ("myls: cannot access -- bad") ∈ (main_run fsDot ["bad"]).out ∧
      (main_run fsDot ["bad"]).err = [] ∧ (main_run fsDot ["bad"]).exit = 0 :=
  ⟨by decide, rfl, rfl⟩


/-- C8: when no operand is accepted, classification substitutes the single
directory operand `.` with empty plain files and total 1; when at least one
operand is accepted, no substitution occurs and the collections are exactly
the accepted operands in command-line order. -/
theorem gather_paths_default_dot (fs : Fs) (args : List String) :
    gather_paths fs args =
      if acceptedDirs fs args = [] ∧ acceptedFiles fs args = [] then
        ⟨["."], [], 1,
          (rejectedOps fs args).map (fun a => "myls: cannot access -- " ++ a)⟩
      else
        ⟨acceptedDirs fs args, acceptedFiles fs args,
          (acceptedDirs fs args).length + (acceptedFiles fs args).length,
          (rejectedOps fs args).map (fun a => "myls: cannot access -- " ++ a)⟩ := by
  show (let g := gatherLoop fs args
    if g.total = 0 then ⟨["."], g.non_dirs, 1, g.out⟩ else g) = _
  rw [gatherLoop_spec fs args]
  by_cases hc : acceptedDirs fs args = [] ∧ acceptedFiles fs args = []
  · rw [if_pos hc, hc.1, hc.2]
    simp
  · rw [if_neg hc]
    have h0 : (acceptedDirs fs args).length + (acceptedFiles fs args).length ≠ 0 := by
      intro h
      exact hc ⟨List.length_eq_zero.mp (by omega), List.length_eq_zero.mp (by omega)⟩
    simp only [if_neg h0]

/-- C3 (amended): an operand that neither opens as a directory nor passes
`lstat` produces the cannot-access diagnostic on standard output, is
excluded from both accepted collections, leaves the processing of the
remaining operands intact, and the exit status stays 0. -/
theorem cannot_access_diag_behavior (fs : Fs) (args : List String) (x : String)
    (opts : options_t) (hok : parse_options args = .ok opts)
    (hmem : x ∈ args) (hflag : isFlagToken x = false)
    (hod : fs.opendirOk x = false) (hst : fs.lstatOk x = false) :
    ("myls: cannot access -- " ++ x) ∈ (main_run fs args).out ∧
      x ∉ acceptedDirs fs args ∧ x ∉ acceptedFiles fs args ∧
      (∀ y ∈ args, isFlagToken y = false → fs.opendirOk y = true →
        y ∈ (gather_paths fs args).dirs) ∧
      (main_run fs args).exit = 0 := by
  have hrej : x ∈ rejectedOps fs args := by
    rw [rejectedOps, List.mem_filter]
    exact ⟨hmem, by simp [hflag, hod, hst]⟩
  have hout : ("myls: cannot access -- " ++ x) ∈ (gather_paths fs args).out := by
    have : (gather_paths fs args).out = (gatherLoop fs args).out := by
      rw [gather_paths]
      by_cases h0 : (gatherLoop fs args).total = 0 <;> simp [h0]
    rw [this, gatherLoop_spec fs args]
    exact List.mem_map_of_mem _ hrej
  refine ⟨?_, ?_, ?_, ?_, ?_⟩
  · simp only [main_run, hok]
    exact List.mem_append_left _ (List.mem_append_left _ (List.mem_append_left _ hout))
  · rw [acceptedDirs, List.mem_filter]
    rintro ⟨-, hp⟩
    rw [hod] at hp
    simp at hp
  · rw [acceptedFiles, List.mem_filter]
    rintro ⟨-, hp⟩
    rw [hst] at hp
    simp at hp
  · intro y hy hyf hyo
    have hyd : y ∈ acceptedDirs fs args := by
      rw [acceptedDirs, List.mem_filter]
      exact ⟨hy, by simp [hyf, hyo]⟩
    have hne : acceptedDirs fs args ≠ [] := by
      intro h
      rw [h] at hyd
      exact absurd hyd (List.not_mem_nil y)
    have : gather_paths fs args = gatherLoop fs args := by
      rw [gather_paths]
      have h0 : (gatherLoop fs args).total ≠ 0 := by
        rw [gatherLoop_spec fs args]
        have : 0 < (acceptedDirs fs args).length := List.length_pos.mpr hne
        simp only []
        omega
      simp [h0]
    rw [this, gatherLoop_spec fs args]
    exact hyd
  · simp only [main_run, hok]

/-- Witness for the amended C3: operand `zz` of a concrete filesystem is
inaccessible while directory operand `d1` is still processed. -/
theorem cannot_access_diag_behavior_witness :
    parse_options ["zz", "d1"] = .ok ⟨false, false⟩ ∧
      "zz" ∈ ["zz", "d1"] ∧ isFlagToken "zz" = false ∧
      fsDemo.opendirOk "zz" = false ∧ fsDemo.lstatOk "zz" = false ∧
      (("myls: cannot access -- " ++ "zz") ∈ (main_run fsDemo ["zz", "d1"]).out ∧
        "zz" ∉ acceptedDirs fsDemo ["zz", "d1"] ∧
        "zz" ∉ acceptedFiles fsDemo ["zz", "d1"] ∧
        (∀ y ∈ ["zz", "d1"], isFlagToken y = false → fsDemo.opendirOk y = true →
          y ∈ (gather_paths fsDemo ["zz", "d1"]).dirs) ∧
        (main_run fsDemo ["zz", "d1"]).exit = 0) :=
  ⟨rfl, by decide, rfl, rfl, rfl,
    cannot_access_diag_behavior fsDemo ["zz", "d1"] "zz" ⟨false, false⟩ rfl
      (by decide) rfl rfl rfl⟩


theorem scanFlagChars_err :
    ∀ (cs : List Char) (opts : options_t) (c : Char),
      cs.find? invalidChar = some c → scanFlagChars opts cs = .error c
  | [], opts, c => by
    intro h
    simp [List.find?] at h
  | d :: rest, opts, c => by
    intro h
    by_cases hd : invalidChar d = true
    · rw [List.find?_cons_of_pos _ hd] at h
      have hdc : d = c := by injection h
      subst hdc
      have ha : ¬ d = 'a' := by
        intro hh
        rw [hh] at hd
        simp [invalidChar] at hd
      have ht : ¬ d = 't' := by
        intro hh
        rw [hh] at hd
        simp [invalidChar] at hd
      rw [scanFlagChars, if_neg ha, if_neg ht]
    · rw [List.find?_cons_of_neg _ hd] at h
      have hvalid : d = 'a' ∨ d = 't' := by
        simp [invalidChar] at hd
        by_cases h1 : d = 'a'
        · exact Or.inl h1
        · exact Or.inr (hd h1)
      rcases hvalid with h1 | h1
      · subst h1
        rw [scanFlagChars, if_pos rfl]
        exact scanFlagChars_err rest _ c h
      · subst h1
        rw [scanFlagChars, if_neg (by decide), if_pos rfl]
        exact scanFlagChars_err rest _ c h

theorem scanFlagChars_ok :
    ∀ (cs : List Char) (opts : options_t),
      (∀ c ∈ cs, c = 'a' ∨ c = 't') →
      scanFlagChars opts cs =
        .ok ⟨opts.show_all || cs.contains 'a', opts.sort_time || cs.contains 't'⟩
  | [], opts => by
    intro h
    simp [scanFlagChars]
  | d :: rest, opts => by
    intro h
    have hrest : ∀ c ∈ rest, c = 'a' ∨ c = 't' :=
      fun c hc => h c (List.mem_cons_of_mem _ hc)
    rcases h d (List.mem_cons_self _ _) with hd | hd
    · subst hd
      rw [scanFlagChars, if_pos rfl, scanFlagChars_ok rest _ hrest]
      simp
    · subst hd
      rw [scanFlagChars, if_neg (by decide), if_pos rfl, scanFlagChars_ok rest _ hrest]
      simp

theorem parseLoop_err :
    ∀ (args : List String) (opts : options_t) (c : Char),
      (flagChars args).find? invalidChar = some c → parseLoop opts args = .error c
  | [], opts, c => by
    intro h
    simp [flagChars, List.find?] at h
  | a :: rest, opts, c => by
    intro h
    rw [flagChars] at h
    by_cases hf : isFlagToken a = true
    · rw [if_pos hf, List.find?_append] at h
      rw [parseLoop, if_pos hf]
      cases htail : (a.data.tail).find? invalidChar with
      | some d =>
        rw [htail, Option.or_some] at h
        have hdc : d = c := by injection h
        subst hdc
        rw [scanFlagChars_err a.data.tail opts d htail]
      | none =>
        rw [htail] at h
        simp only [Option.none_or] at h
        have hvalid : ∀ x ∈ a.data.tail, x = 'a' ∨ x = 't' := by
          intro x hx
          have hinv := List.find?_eq_none.mp htail x hx
          simp [invalidChar] at hinv
          by_cases h1 : x = 'a'
          · exact Or.inl h1
          · exact Or.inr (hinv h1)
        rw [scanFlagChars_ok a.data.tail opts hvalid]
        exact parseLoop_err rest _ c h
    · rw [if_neg hf] at h
      rw [parseLoop, if_neg hf]
      simp only [List.nil_append] at h
      exact parseLoop_err rest opts c h

theorem contains_append_chars (l₁ l₂ : List Char) (c : Char) :
    (l₁ ++ l₂).contains c = (l₁.contains c || l₂.contains c) := by
  induction l₁ with
  | nil => simp
  | cons d l ih => simp [List.contains_cons, ih, Bool.or_assoc]

theorem parseLoop_ok :
    ∀ (args : List String) (opts : options_t),
      (∀ c ∈ flagChars args, c = 'a' ∨ c = 't') →
      parseLoop opts args =
        .ok ⟨opts.show_all || (flagChars args).contains 'a',
          opts.sort_time || (flagChars args).contains 't'⟩
  | [], opts => by
    intro h
    simp [parseLoop, flagChars]
  | a :: rest, opts => by
    intro h
    rw [flagChars] at h
    by_cases hf : isFlagToken a = true
    · rw [if_pos hf] at h
      have htail : ∀ c ∈ a.data.tail, c = 'a' ∨ c = 't' :=
        fun c hc => h c (List.mem_append_left _ hc)
      have hrest : ∀ c ∈ flagChars rest, c = 'a' ∨ c = 't' :=
        fun c hc => h c (List.mem_append_right _ hc)
      rw [parseLoop, if_pos hf, scanFlagChars_ok a.data.tail opts htail]
      show parseLoop ⟨opts.show_all || a.data.tail.contains 'a',
        opts.sort_time || a.data.tail.contains 't'⟩ rest = _
      rw [parseLoop_ok rest _ hrest, flagChars, if_pos hf, contains_append_chars,
        contains_append_chars, Bool.or_assoc, Bool.or_assoc]
    · rw [if_neg hf] at h
      simp only [List.nil_append] at h
      rw [parseLoop, if_neg hf, parseLoop_ok rest opts h]
      rw [flagChars, if_neg hf, List.nil_append]


theorem mem_flagChars (c : Char) :
    ∀ args : List String,
      c ∈ flagChars args ↔ ∃ a ∈ args, isFlagToken a = true ∧ c ∈ a.data.tail
  | [] => by simp [flagChars]
  | a :: rest => by
    rw [flagChars]
    by_cases hf : isFlagToken a = true
    · rw [if_pos hf, List.mem_append, mem_flagChars c rest]
      constructor
      · rintro (hc | ⟨x, hx, hfx, hcx⟩)
        · exact ⟨a, List.mem_cons_self _ _, hf, hc⟩
        · exact ⟨x, List.mem_cons_of_mem _ hx, hfx, hcx⟩
      · rintro ⟨x, hx, hfx, hcx⟩
        rcases List.mem_cons.mp hx with rfl | hx'
        · exact Or.inl hcx
        · exact Or.inr ⟨x, hx', hfx, hcx⟩
    · rw [if_neg hf, List.nil_append, mem_flagChars c rest]
      constructor
      · rintro ⟨x, hx, hfx, hcx⟩
        exact ⟨x, List.mem_cons_of_mem _ hx, hfx, hcx⟩
      · rintro ⟨x, hx, hfx, hcx⟩
        rcases List.mem_cons.mp hx with rfl | hx'
        · exact absurd hfx hf
        · exact ⟨x, hx', hfx, hcx⟩

/-- C4: an argument list whose flag tokens contain an unrecognized option
character makes the whole run print only the invalid-option diagnostic
naming the first such character (in scan order) and exit with status 1,
with no listing output. -/
theorem invalid_option_fatal (fs : Fs) (args : List String) (c : Char)
    (h : (flagChars args).find? invalidChar = some c) :
    main_run fs args =
      ⟨["myls: invalid option -- " ++ String.singleton c], [], 1⟩ := by
  have hp : parse_options args = .error c := parseLoop_err args ⟨false, false⟩ c h
  simp [main_run, hp]

/-- Witness for C4: `myls -x` fails fatally naming `x`. -/
theorem invalid_option_fatal_witness :
    (flagChars ["-x"]).find? invalidChar = some 'x' ∧
      main_run fsDot ["-x"] =
        ⟨["myls: invalid option -- " ++ String.singleton 'x'], [], 1⟩ :=
  ⟨by decide, invalid_option_fatal fsDot ["-x"] 'x' (by decide)⟩

/-- C5: when every option character is recognized, parsing succeeds with
`show_all` set iff some flag token contains `a` and `sort_time` set iff
some flag token contains `t` — flags are idempotent and may be split or
combined across tokens. -/
theorem valid_flags_parse (args : List String)
    (h : ∀ c ∈ flagChars args, c = 'a' ∨ c = 't') :
    parse_options args =
      .ok ⟨(flagChars args).contains 'a', (flagChars args).contains 't'⟩ ∧
      ((flagChars args).contains 'a' = true ↔
        ∃ a ∈ args, isFlagToken a = true ∧ 'a' ∈ a.data.tail) ∧
      ((flagChars args).contains 't' = true ↔
        ∃ a ∈ args, isFlagToken a = true ∧ 't' ∈ a.data.tail) := by
  refine ⟨?_, ?_, ?_⟩
  · have := parseLoop_ok args ⟨false, false⟩ h
    simpa [parse_options] using this
  · rw [List.contains_iff_exists_mem_beq]
    simp only [beq_iff_eq]
    constructor
    · rintro ⟨x, hx, rfl⟩
      exact (mem_flagChars _ args).mp hx
    · intro hex
      exact ⟨'a', (mem_flagChars 'a' args).mpr hex, rfl⟩
  · rw [List.contains_iff_exists_mem_beq]
    simp only [beq_iff_eq]
    constructor
    · rintro ⟨x, hx, rfl⟩
      exact (mem_flagChars _ args).mp hx
    · intro hex
      exact ⟨'t', (mem_flagChars 't' args).mpr hex, rfl⟩

/-- Witness for C5 on split and repeated flags. -/
theorem valid_flags_parse_witness :
    (∀ c ∈ flagChars ["-t", "x", "-ta"], c = 'a' ∨ c = 't') ∧
      (parse_options ["-t", "x", "-ta"] =
          .ok ⟨(flagChars ["-t", "x", "-ta"]).contains 'a',
            (flagChars ["-t", "x", "-ta"]).contains 't'⟩ ∧
        ((flagChars ["-t", "x", "-ta"]).contains 'a' = true ↔
          ∃ a ∈ ["-t", "x", "-ta"], isFlagToken a = true ∧ 'a' ∈ a.data.tail) ∧
        ((flagChars ["-t", "x", "-ta"]).contains 't' = true ↔
          ∃ a ∈ ["-t", "x", "-ta"], isFlagToken a = true ∧ 't' ∈ a.data.tail)) :=
  ⟨by decide, valid_flags_parse ["-t", "x", "-ta"] (by decide)⟩


theorem fileTimeLe_ne_timeLt {a b : file_info_t}
    (hle : fileTimeLe a b) (hne : a.name ≠ b.name) : timeLt a b := by
  rcases lt_or_eq_of_le hle with hlt | heq
  · exact (cmp_file_time_lt_iff a b).mp hlt
  · obtain ⟨-, -, e3⟩ := (cmp_file_time_eq_zero_iff a b).mp heq
    exact absurd e3 hne

theorem timeLt_asymm {a b : file_info_t} (h1 : timeLt a b) (h2 : timeLt b a) : False := by
  have l1 := (cmp_file_time_lt_iff a b).mpr h1
  have l2 := (cmp_file_time_lt_iff b a).mpr h2
  have := cmp_file_time_neg a b
  omega

/-- C1: with time-sort enabled, `sort_file_list` orders entries by seconds
descending, then nanoseconds descending, then name ascending; on entry
lists with pairwise-distinct names this comparison is a total order and
the output is strictly sorted by it and is a permutation of the input. -/
theorem sort_file_list_time_order (fl : file_list_t)
    (hnd : (fl.files.map file_info_t.name).Nodup) :
    (sort_file_list fl true).files.Pairwise timeLt ∧
      (sort_file_list fl true).files.Perm fl.files ∧
      (∀ a b : file_info_t, a.name ≠ b.name →
        (timeLt a b ∨ timeLt b a) ∧ ¬(timeLt a b ∧ timeLt b a)) ∧
      (∀ a b c : file_info_t, timeLt a b → timeLt b c → timeLt a c) := by
  have hperm : (sort_file_list fl true).files.Perm fl.files :=
    sort_file_list_files_perm fl true
  have hne : fl.files.Pairwise (fun a b => a.name ≠ b.name) := by
    rw [← List.pairwise_map]
    exact hnd
  have hne' : (sort_file_list fl true).files.Pairwise (fun a b => a.name ≠ b.name) :=
    (hperm.pairwise_iff (fun h => h.symm)).mpr hne
  have hle : (sort_file_list fl true).files.Pairwise fileTimeLe :=
    sort_file_list_time_sorted fl
  refine ⟨?_, hperm, ?_, fun a b c => timeLt_trans⟩
  · have hand := List.pairwise_and_iff.mpr ⟨hle, hne'⟩
    exact hand.imp (fun h => fileTimeLe_ne_timeLt h.1 h.2)
  · intro a b hab
    constructor
    · rcases fileTimeLe_total a b with h | h
      · exact Or.inl (fileTimeLe_ne_timeLt h hab)
      · exact Or.inr (fileTimeLe_ne_timeLt h (Ne.symm hab))
    · rintro ⟨h1, h2⟩
      exact timeLt_asymm h1 h2

/-- Witness for C1 on a concrete two-entry list with distinct names. -/
theorem sort_file_list_time_order_witness :
    ((file_list_t.mk [⟨"b", 1, 0, false⟩, ⟨"a", 2, 0, true⟩]).files.map
        file_info_t.name).Nodup ∧
      ((sort_file_list ⟨[⟨"b", 1, 0, false⟩, ⟨"a", 2, 0, true⟩]⟩ true).files.Pairwise
          timeLt ∧
        (sort_file_list ⟨[⟨"b", 1, 0, false⟩, ⟨"a", 2, 0, true⟩]⟩ true).files.Perm
          [⟨"b", 1, 0, false⟩, ⟨"a", 2, 0, true⟩] ∧
        (∀ a b : file_info_t, a.name ≠ b.name →
          (timeLt a b ∨ timeLt b a) ∧ ¬(timeLt a b ∧ timeLt b a)) ∧
        (∀ a b c : file_info_t, timeLt a b → timeLt b c → timeLt a c)) :=
  ⟨by decide, sort_file_list_time_order ⟨[⟨"b", 1, 0, false⟩, ⟨"a", 2, 0, true⟩]⟩
    (by decide)⟩


theorem condSort_eq (l : List String) :
    (if l.length > 1 then sort_entries l else l) = sort_entries l := by
  by_cases h : l.length > 1
  · rw [if_pos h]
  · rw [if_neg h, sort_entries_of_short (by omega)]

theorem dirBlocks_out (fs : Fs) (opts : options_t) (n : Nat) :
    ∀ ds : List String,
      (∀ d ∈ ds, (acceptedNames fs d opts.show_all).length ≤ MAX_FILES) →
      (dirBlocks fs opts n ds).1 = specBlocks n (sortedNamesOf fs opts) ds
  | [] => by
    intro h
    rfl
  | d :: rest => by
    intro h
    have hout : (read_directory fs d opts.show_all).out = [] := by
      by_cases ho : fs.opendirOk d = true
      · rw [read_directory_out fs d _ ho]
        have hc := h d (List.mem_cons_self _ _)
        rw [show (acceptedNames fs d opts.show_all).length - MAX_FILES = 0 from by omega]
        rfl
      · rw [read_directory, if_neg ho]
    have ih := dirBlocks_out fs opts n rest (fun x hx => h x (List.mem_cons_of_mem _ hx))
    simp only [dirBlocks, specBlocks, hout]
    rw [ih]
    cases rest with
    | nil => simp [sortedNamesOf]
    | cons e es => simp [sortedNamesOf]

theorem rejectedOps_nil (fs : Fs) (args : List String)
    (hacc : ∀ a ∈ args, isFlagToken a = false → (fs.opendirOk a || fs.lstatOk a) = true) :
    rejectedOps fs args = [] := by
  rw [rejectedOps, List.filter_eq_nil_iff]
  intro a ha
  by_cases hf : isFlagToken a = true
  · simp [hf]
  · have hf' : isFlagToken a = false := by simpa using hf
    have := hacc a ha hf'
    simp only [Bool.or_eq_true] at this
    rcases this with h1 | h1 <;> simp [h1]

theorem gather_paths_out_eq (fs : Fs) (args : List String) :
    (gather_paths fs args).out = (gatherLoop fs args).out := by
  rw [gather_paths]
  by_cases h0 : (gatherLoop fs args).total = 0 <;> simp [h0]

/-- C9: with valid options, all operands accepted and no directory over
capacity, the printed output is: the plain-file operands one per line in
sorted order, one blank line iff there is at least one plain file and at
least one directory, then each directory in sorted order laid out as
`specBlocks` describes (header iff more than one directory, one blank line
after each directory except the last). -/
theorem main_output_layout (fs : Fs) (args : List String) (opts : options_t)
    (hok : parse_options args = .ok opts)
    (hacc : ∀ a ∈ args, isFlagToken a = false → (fs.opendirOk a || fs.lstatOk a) = true)
    (hcap : ∀ d ∈ (gather_paths fs args).dirs,
      (acceptedNames fs d opts.show_all).length ≤ MAX_FILES) :
    (main_run fs args).out =
      sort_entries (gather_paths fs args).non_dirs
        ++ (if (gather_paths fs args).non_dirs ≠ [] ∧ (gather_paths fs args).dirs ≠ []
            then [""] else [])
        ++ specBlocks (gather_paths fs args).dirs.length (sortedNamesOf fs opts)
            (sort_entries (gather_paths fs args).dirs) ∧
      (sort_entries (gather_paths fs args).non_dirs).Pairwise strLe ∧
      (sort_entries (gather_paths fs args).dirs).Pairwise strLe ∧
      (sort_entries (gather_paths fs args).non_dirs).Perm (gather_paths fs args).non_dirs ∧
      (sort_entries (gather_paths fs args).dirs).Perm (gather_paths fs args).dirs := by
  refine ⟨?_, ?_, ?_, sort_entries_perm _, sort_entries_perm _⟩
  · have hgout : (gather_paths fs args).out = [] := by
      rw [gather_paths_out_eq, gatherLoop_spec fs args]
      show (rejectedOps fs args).map _ = []
      rw [rejectedOps_nil fs args hacc]
      rfl
    have hcap' : ∀ d ∈ sort_entries (gather_paths fs args).dirs,
        (acceptedNames fs d opts.show_all).length ≤ MAX_FILES :=
      fun d hd => hcap d ((sort_entries_perm _).mem_iff.mp hd)
    have hsep : ((gather_paths fs args).non_dirs.length > 0 ∧
          (gather_paths fs args).dirs.length > 0)
        ↔ ((gather_paths fs args).non_dirs ≠ [] ∧ (gather_paths fs args).dirs ≠ []) := by
      rw [gt_iff_lt, gt_iff_lt, List.length_pos, List.length_pos]
    simp only [main_run, hok]
    rw [hgout, List.nil_append, condSort_eq, condSort_eq,
      dirBlocks_out fs opts _ (sort_entries (gather_paths fs args).dirs) hcap',
      (sort_entries_perm (gather_paths fs args).dirs).length_eq,
      if_congr hsep rfl rfl]
  · exact (sort_entries_sorted _).imp (fun h => (strcmp_le_iff _ _).mp h)
  · exact (sort_entries_sorted _).imp (fun h => (strcmp_le_iff _ _).mp h)


/-- Witness for C9 on a concrete filesystem with one plain file and one
directory operand. -/
theorem main_output_layout_witness :
    parse_options ["f1", "d1"] = .ok ⟨false, false⟩ ∧
      (∀ a ∈ ["f1", "d1"], isFlagToken a = false →
        (fsDemo.opendirOk a || fsDemo.lstatOk a) = true) ∧
      (∀ d ∈ (gather_paths fsDemo ["f1", "d1"]).dirs,
        (acceptedNames fsDemo d false).length ≤ MAX_FILES) ∧
      ((main_run fsDemo ["f1", "d1"]).out =
        sort_entries (gather_paths fsDemo ["f1", "d1"]).non_dirs
          ++ (if (gather_paths fsDemo ["f1", "d1"]).non_dirs ≠ [] ∧
                (gather_paths fsDemo ["f1", "d1"]).dirs ≠ []
              then [""] else [])
          ++ specBlocks (gather_paths fsDemo ["f1", "d1"]).dirs.length
              (sortedNamesOf fsDemo ⟨false, false⟩)
              (sort_entries (gather_paths fsDemo ["f1", "d1"]).dirs) ∧
        (sort_entries (gather_paths fsDemo ["f1", "d1"]).non_dirs).Pairwise strLe ∧
        (sort_entries (gather_paths fsDemo ["f1", "d1"]).dirs).Pairwise strLe ∧
        (sort_entries (gather_paths fsDemo ["f1", "d1"]).non_dirs).Perm
          (gather_paths fsDemo ["f1", "d1"]).non_dirs ∧
        (sort_entries (gather_paths fsDemo ["f1", "d1"]).dirs).Perm
          (gather_paths fsDemo ["f1", "d1"]).dirs) :=
  ⟨rfl, by decide, by decide,
    main_output_layout fsDemo ["f1", "d1"] ⟨false, false⟩ rfl (by decide) (by decide)⟩

end Myls
